import Mathlib

set_option allowUnsafeReducibility true

/- The kernel reduces the rational operations fine, but the `decide` frontend
respects their `irreducible` marking; lifting it lets concrete runs of the
model be checked by `decide`. -/
attribute [semireducible] Rat.add Rat.mul Rat.sub Rat.div Rat.neg Rat.inv
attribute [semireducible] Rat.floor Rat.ceil Rat.ofScientific

/-!
Verification development for the PyCNN cellular-neural-network image
processor (`pycnn.py`).  The numeric pipeline is embedded shallowly over ℚ:
fields are `Fin n → Fin m → ℚ`, state vectors are `Fin (n*m) → ℚ`, the
external adaptive ODE solver is an opaque step function, and the `while`
loop that drives it is modelled with explicit fuel.
-/

namespace SegNet

/-- A 2-D real field of height `n` (rows) and width `m` (columns); the
representation of one image channel and of the evolving network state. -/
abbrev Field (n m : ℕ) : Type := Fin n → Fin m → ℚ

/-- The mutable attributes of a `PyCNN` object: `m` (width) and `n` (height),
exactly the fields set by `__init__`. -/
structure PyCNN where
  m : ℕ
  n : ℕ
deriving DecidableEq, Repr

/-- The object produced by `PyCNN.__init__`: both attributes start at 0. -/
def initPyCNN : PyCNN := ⟨0, 0⟩

/-- The piecewise-linear sigmoid `cnn` of the source:
`0.5 * (abs(x + 1) - abs(x - 1))`. -/
def cnn (x : ℚ) : ℚ := 0.5 * (|x + 1| - |x - 1|)

/-- Zero-padded access into a field at integer indices, the boundary
convention of `scipy.signal.convolve2d(..., 'same')` with the default
`boundary='fill', fillvalue=0`. -/
def padQ {n m : ℕ} (X : Field n m) (a b : ℤ) : ℚ :=
  if h : 0 ≤ a ∧ a < (n : ℤ) ∧ 0 ≤ b ∧ b < (m : ℤ) then
    X ⟨a.toNat, by omega⟩ ⟨b.toNat, by omega⟩
  else 0

/-- `scipy.signal.convolve2d(X, K, 'same')` for a 3×3 kernel `K`: the central
`n×m` part of the full discrete 2-D convolution of `X` with `K`, with zero
padding.  `full[a, b] = Σ_{k,l} X[k,l] * K[a-k, b-l]` and the `'same'` output
is `full[i+1, j+1]`. -/
def convolve2d {n m : ℕ} (X : Field n m) (K : Field 3 3) : Field n m :=
  fun i j =>
    ∑ k ∈ Finset.Icc (0 : ℤ) ((n : ℤ) - 1), ∑ l ∈ Finset.Icc (0 : ℤ) ((m : ℤ) - 1),
      padQ X k l * padQ K ((i : ℤ) + 1 - k) ((j : ℤ) + 1 - l)

/-- Modelled from the spec's Convolution Engine contract, for comparison with
`convolve2d`: `Y[i,j] = Σ_{di,dj ∈ {-1,0,1}} K[1+di,1+dj] * X[i-di, j-dj]`
with implicit zero padding outside `[0,n) × [0,m)`. -/
def specCorr {n m : ℕ} (X : Field n m) (K : Field 3 3) : Field n m :=
  fun i j =>
    ∑ d ∈ Finset.Icc (-1 : ℤ) 1, ∑ e ∈ Finset.Icc (-1 : ℤ) 1,
      padQ K (1 + d) (1 + e) * padQ X ((i : ℤ) - d) ((j : ℤ) - e)

/-- Row-major (numpy C-order) flattening of an `n×m` field into a vector of
length `n*m`, as in `dx.reshape(self.m * self.n)`. -/
def flatten {n m : ℕ} (X : Field n m) : Fin (n * m) → ℚ :=
  fun k =>
    have hm : 0 < m := by
      rcases Nat.eq_zero_or_pos m with h | h
      · exact absurd k.isLt (by simp [h])
      · exact h
    X ⟨(k : ℕ) / m, Nat.div_lt_of_lt_mul (Nat.lt_of_lt_of_eq k.isLt (Nat.mul_comm n m))⟩
      ⟨(k : ℕ) % m, Nat.mod_lt _ hm⟩

/-- Row-major (numpy C-order) unflattening of a vector of length `n*m` into an
`n×m` field, as in `x.reshape((self.n, self.m))`. -/
def unflatten {n m : ℕ} (v : Fin (n * m) → ℚ) : Field n m :=
  fun i j =>
    v ⟨(i : ℕ) * m + (j : ℕ), by
        have hj := j.isLt
        have hi : (i : ℕ) + 1 ≤ n := i.isLt
        calc (i : ℕ) * m + (j : ℕ) < (i : ℕ) * m + m := by omega
          _ = ((i : ℕ) + 1) * m := by ring
          _ ≤ n * m := Nat.mul_le_mul_right m hi⟩

/-- The derivative function `f` of the source: reshape the state to a field,
form `-x + Ib + Bu + convolve2d(cnn(x), tempA, 'same')`, and flatten back. -/
def f {n m : ℕ} (_t : ℚ) (x : Fin (n * m) → ℚ) (Ib : ℚ) (Bu : Field n m)
    (tempA : Field 3 3) : Fin (n * m) → ℚ :=
  let X := unflatten x
  flatten (fun i j => -(X i j) + Ib + Bu i j + convolve2d (fun a b => cnn (X a b)) tempA i j)

/-- The right-hand side handed to the integrator by `imageProcessing`:
`f` with parameters `(Ib, Bu, tempA)` where `Bu = convolve2d(u, tempB, 'same')`
is computed once from the input image and held fixed. -/
def odeRhs {n m : ℕ} (u : Field n m) (tempA tempB : Field 3 3) (Ib : ℚ) :
    ℚ → (Fin (n * m) → ℚ) → (Fin (n * m) → ℚ) :=
  fun t x => f t x Ib (convolve2d u tempB) tempA

/-- The observable state of a `scipy.integrate.ode` object: current time `t`,
current state `y`, and the flag reported by `successful()`. -/
structure OdeState (σ : Type) where
  t : ℚ
  y : σ
  ok : Bool
deriving DecidableEq, Repr

/-- An integrator step: `ode.integrate(target)` maps the current object state
to a new one (the external solver is opaque, so it is a parameter). -/
abbrev Step (σ : Type) : Type := ℚ → OdeState σ → OdeState σ

/-- The integration loop of `imageProcessing`, with explicit fuel:
`while ode.successful() and ode.t < tFinal + 0.1: ode_result = ode.integrate(ode.t + dt)`.
Returns `none` when the fuel runs out, otherwise the final object state and
the last value assigned to `ode_result` (`none` when the body never ran). -/
def odeLoop {σ : Type} (step : Step σ) (tFinal dt : ℚ) :
    ℕ → OdeState σ → Option σ → Option (OdeState σ × Option σ)
  | 0, st, res =>
      if st.ok = true ∧ st.t < tFinal + 1 / 10 then none else some (st, res)
  | fuel + 1, st, res =>
      if st.ok = true ∧ st.t < tFinal + 1 / 10 then
        odeLoop step tFinal dt fuel (step (st.t + dt) st) (some ((step (st.t + dt) st).y))
      else some (st, res)

/-- An ideal integrator that advances exactly along a given solution `sol` of
the ODE system and always reports success. -/
def exactStep {σ : Type} (sol : ℚ → σ) : Step σ :=
  fun target _st => ⟨target, sol target, true⟩

/-- An integrator whose first step fails: the time does not advance, the
returned array is `y'`, and `successful()` becomes false. -/
def failStep {σ : Type} (y' : σ) : Step σ :=
  fun _target st => ⟨st.t, y', false⟩

/-- Round half to even, the rounding rule of `np.round`. -/
def roundHalfEven (q : ℚ) : ℤ :=
  let fl := ⌊q⌋
  let frac := q - fl
  if frac < 1 / 2 then fl
  else if 1 / 2 < frac then fl + 1
  else if fl % 2 = 0 then fl else fl + 1

/-- The per-pixel rescaling of `imageProcessing`: `l = l / 255.0` followed by
`np.uint8(np.round(l * 255))`.  The conversion to `uint8` reduces the rounded
integer modulo 256 (two's-complement wraparound, no clamping). -/
def pixelOf (v : ℚ) : ℕ := (roundHalfEven (v / 255 * 255) % 256).toNat

/-- Modelled from the spec's step 6, for comparison with `pixelOf`: round,
then clamp to `[0, 255]`, then widen to an unsigned 8-bit sample. -/
def pixelClamped (v : ℚ) : ℕ :=
  (min 255 (max 0 (roundHalfEven (v / 255 * 255)))).toNat

/-- The image written by `imageProcessing` from the last integrator result:
apply `cnn`, reshape to `(n, m)`, and rescale each sample to a byte. -/
def savedImage {n m : ℕ} (zvec : Fin (n * m) → ℚ) : Fin n → Fin m → ℕ :=
  fun i j => pixelOf (unflatten (fun k => cnn (zvec k)) i j)

/-- The macro-step `dt` of `imageProcessing`: `t[1] - t[0]` when `t` has more
than one sample, else `t[0]`. -/
def dtOf (t0 : ℚ) : List ℚ → ℚ
  | [] => t0
  | t1 :: _ => t1 - t0

/-- Shallow model of `PyCNN.imageProcessing`.  The input image channel `u`
(with dimensions `n × m`), the integrator `integ` (a function of the supplied
right-hand side), and the loop fuel are explicit.  Returns `none` where the
Python raises (`t` empty, `ode_result` never bound) or the loop fuel runs
out; otherwise returns the object state after the call, the pixel grid
written to `outputLocation`, and the final `successful()` flag. -/
def imageProcessing {n m : ℕ}
    (integ : (ℚ → (Fin (n * m) → ℚ) → (Fin (n * m) → ℚ)) → Step (Fin (n * m) → ℚ))
    (_self : PyCNN) (u : Field n m) (tempA tempB : Field 3 3)
    (initialCondition Ib : ℚ) (t : List ℚ) (fuel : ℕ) :
    Option (PyCNN × (Fin n → Fin m → ℕ) × Bool) :=
  match t with
  | [] => none
  | t0 :: ts =>
      let tFinal := ts.foldl max t0
      let tInitial := ts.foldl min t0
      let z0 : Field n m := fun i j => u i j * initialCondition
      match odeLoop (integ (odeRhs u tempA tempB Ib)) tFinal (dtOf t0 ts) fuel
          ⟨tInitial, flatten z0, true⟩ none with
      | none => none
      | some (_stEnd, none) => none
      | some (stEnd, some zvec) => some (⟨m, n⟩, savedImage zvec, stEnd.ok)

/-- `np.linspace(a, b, num)`: `num` evenly spaced samples from `a` to `b`,
endpoint included. -/
def linspace (a b : ℚ) (num : ℕ) : List ℚ :=
  (List.range num).map (fun i => if num = 1 then a else a + i * (b - a) / ((num : ℚ) - 1))

/-- The argument record a convenience operation forwards (through
`generalTemplates`) to `imageProcessing`. -/
structure SimCall where
  tempA : Field 3 3
  tempB : Field 3 3
  initialCondition : ℚ
  Ib : ℚ
  t : List ℚ

/-- The simulation call made by `edgeDetection`, with the literal values of
the source: `A = [[0,0,0],[0,1,0],[0,0,0]]`,
`B = [[-1,-1,-1],[-1,8,-1],[-1,-1,-1]]`, `Ib = -1.0`,
`initialCondition = 0.0`, `t = np.linspace(0, 10.0, num=2)`. -/
def edgeDetectionCall : SimCall where
  tempA := ![![0, 0, 0], ![0, 1, 0], ![0, 0, 0]]
  tempB := ![![-1, -1, -1], ![-1, 8, -1], ![-1, -1, -1]]
  initialCondition := 0
  Ib := -1
  t := linspace 0 10 2

/-- The supported extensions tuple of the source, as character lists. -/
def SUPPORTED_FILETYPES : List (List Char) :=
  [['j', 'p', 'e', 'g'], ['j', 'p', 'g'], ['p', 'n', 'g'],
   ['t', 'i', 'f', 'f'], ['g', 'i', 'f'], ['b', 'm', 'p']]

/-- Python `str.rfind`: index of the last occurrence of `c`, `-1` if absent. -/
def rfindIdx (c : Char) (s : List Char) : ℤ :=
  match s.reverse.findIdx? (fun a => a = c) with
  | none => -1
  | some i => (s.length : ℤ) - 1 - (i : ℤ)

/-- The extension part of `os.path.splitext` (posix flavour): the suffix from
the last dot of the basename, unless every character of the basename before
that dot is itself a dot. -/
def splitextExt (p : List Char) : List Char :=
  let sepIndex := rfindIdx '/' p
  let dotIndex := rfindIdx '.' p
  if sepIndex < dotIndex then
    let base := (p.drop (sepIndex + 1).toNat).take (dotIndex - sepIndex - 1).toNat
    if base.any (fun a => a ≠ '.') then p.drop dotIndex.toNat else []
  else []

/-- The possible outcomes of `PyCNN.validate`: success, the two `IOError`
branches, and the unsupported-extension `Exception`. -/
inductive ValidateOutcome where
  | ok
  | errNotExist
  | errNotFile
  | errUnsupported
deriving DecidableEq, Repr

/-- `PyCNN.validate`, with the filesystem predicates `os.path.exists` and
`os.path.isfile` as parameters.  The extension is computed first
(`splitext`, strip leading dots, lowercase), then the checks run in the
source's order: existence, regular file, supported extension. -/
def validate (pathExists isFile : List Char → Bool) (inputLocation : List Char) :
    ValidateOutcome :=
  let ext := ((splitextExt inputLocation).dropWhile (fun a => a = '.')).map Char.toLower
  if pathExists inputLocation = false then .errNotExist
  else if isFile inputLocation = false then .errNotFile
  else if (SUPPORTED_FILETYPES.contains ext) = false then .errUnsupported
  else .ok

/-- Shallow model of `PyCNN.generalTemplates`: validate the input path first;
only when validation passes is `imageProcessing` invoked. -/
def generalTemplates {n m : ℕ} (pathExists isFile : List Char → Bool)
    (integ : (ℚ → (Fin (n * m) → ℚ) → (Fin (n * m) → ℚ)) → Step (Fin (n * m) → ℚ))
    (self : PyCNN) (inputLocation : List Char) (u : Field n m)
    (tempA tempB : Field 3 3) (initialCondition Ib : ℚ) (t : List ℚ) (fuel : ℕ) :
    Except ValidateOutcome (Option (PyCNN × (Fin n → Fin m → ℕ) × Bool)) :=
  match validate pathExists isFile inputLocation with
  | .ok => .ok (imageProcessing integ self u tempA tempB initialCondition Ib t fuel)
  | e => .error e

/-! ### Helper lemmas -/

theorem padQ_zero_row {n m : ℕ} (X : Field n m) (a b : ℤ) (h : a < 0 ∨ (n : ℤ) ≤ a) :
    padQ X a b = 0 := by
  unfold padQ
  rw [dif_neg]
  omega

theorem padQ_zero_col {n m : ℕ} (X : Field n m) (a b : ℤ) (h : b < 0 ∨ (m : ℤ) ≤ b) :
    padQ X a b = 0 := by
  unfold padQ
  rw [dif_neg]
  omega

theorem sum_Icc_of_support (g : ℤ → ℚ) (A B : Finset ℤ)
    (hA : ∀ k ∈ A, k ∉ B → g k = 0) (hB : ∀ k ∈ B, k ∉ A → g k = 0) :
    ∑ k ∈ A, g k = ∑ k ∈ B, g k := by
  calc ∑ k ∈ A, g k
      = ∑ k ∈ A ∩ B, g k :=
        (Finset.sum_subset Finset.inter_subset_left
          (fun x hx hnx => hA x hx (fun hxB => hnx (Finset.mem_inter.mpr ⟨hx, hxB⟩)))).symm
    _ = ∑ k ∈ B, g k :=
        Finset.sum_subset Finset.inter_subset_right
          (fun x hx hnx => hB x hx (fun hxA => hnx (Finset.mem_inter.mpr ⟨hxA, hx⟩)))

theorem sum_Icc_reflect (g : ℤ → ℚ) (c : ℤ) :
    ∑ k ∈ Finset.Icc (c - 1) (c + 1), g k = ∑ d ∈ Finset.Icc (-1 : ℤ) 1, g (c - d) := by
  have hmap : Finset.Icc (c - 1) (c + 1)
      = Finset.map ⟨fun d => c - d, fun a b h => by dsimp only at h; omega⟩ (Finset.Icc (-1 : ℤ) 1) := by
    ext x
    simp only [Finset.mem_map, Finset.mem_Icc, Function.Embedding.coeFn_mk]
    constructor
    · intro hx
      exact ⟨c - x, by omega, by omega⟩
    · rintro ⟨a, ha, rfl⟩
      omega
  rw [hmap, Finset.sum_map]
  rfl

/-- A sum over the index range `[0, N)` of a summand that also vanishes
outside the window `[c-1, c+1]` collapses to the three-term window sum. -/
theorem sum_window (g : ℤ → ℚ) (N : ℕ) (c : ℤ)
    (h0 : ∀ k, k < 0 ∨ (N : ℤ) ≤ k → g k = 0)
    (hw : ∀ k, k < c - 1 ∨ c + 1 < k → g k = 0) :
    ∑ k ∈ Finset.Icc (0 : ℤ) ((N : ℤ) - 1), g k = ∑ d ∈ Finset.Icc (-1 : ℤ) 1, g (c - d) := by
  rw [← sum_Icc_reflect]
  apply sum_Icc_of_support
  · intro k hk hnk
    simp only [Finset.mem_Icc] at hk hnk
    exact hw k (by omega)
  · intro k hk hnk
    simp only [Finset.mem_Icc] at hk hnk
    exact h0 k (by omega)

/-- The bridge between the library convolution used by the source
(`scipy.signal.convolve2d(·, ·, 'same')`, modelled as the cropped full
convolution) and the window formula of the specification. -/
theorem convolve2d_eq_specCorr {n m : ℕ} (X : Field n m) (K : Field 3 3)
    (i : Fin n) (j : Fin m) : convolve2d X K i j = specCorr X K i j := by
  have inner_eq : ∀ d : ℤ,
      (∑ l ∈ Finset.Icc (0 : ℤ) ((m : ℤ) - 1),
        padQ X ((i : ℤ) - d) l * padQ K ((i : ℤ) + 1 - ((i : ℤ) - d)) ((j : ℤ) + 1 - l))
      = ∑ e ∈ Finset.Icc (-1 : ℤ) 1, padQ K (1 + d) (1 + e) * padQ X ((i : ℤ) - d) ((j : ℤ) - e) := by
    intro d
    have h0 : ∀ l : ℤ, l < 0 ∨ (m : ℤ) ≤ l →
        padQ X ((i : ℤ) - d) l * padQ K ((i : ℤ) + 1 - ((i : ℤ) - d)) ((j : ℤ) + 1 - l) = 0 := by
      intro l hl
      rw [padQ_zero_col X _ _ hl, zero_mul]
    have hw : ∀ l : ℤ, l < (j : ℤ) - 1 ∨ (j : ℤ) + 1 < l →
        padQ X ((i : ℤ) - d) l * padQ K ((i : ℤ) + 1 - ((i : ℤ) - d)) ((j : ℤ) + 1 - l) = 0 := by
      intro l hl
      rw [padQ_zero_col K _ _ (by omega), mul_zero]
    calc (∑ l ∈ Finset.Icc (0 : ℤ) ((m : ℤ) - 1),
            padQ X ((i : ℤ) - d) l * padQ K ((i : ℤ) + 1 - ((i : ℤ) - d)) ((j : ℤ) + 1 - l))
        = ∑ e ∈ Finset.Icc (-1 : ℤ) 1,
            padQ X ((i : ℤ) - d) ((j : ℤ) - e)
              * padQ K ((i : ℤ) + 1 - ((i : ℤ) - d)) ((j : ℤ) + 1 - ((j : ℤ) - e)) :=
          sum_window _ m (j : ℤ) h0 hw
      _ = ∑ e ∈ Finset.Icc (-1 : ℤ) 1,
            padQ K (1 + d) (1 + e) * padQ X ((i : ℤ) - d) ((j : ℤ) - e) := by
          apply Finset.sum_congr rfl
          intro e _
          have e1 : (i : ℤ) + 1 - ((i : ℤ) - d) = 1 + d := by ring
          have e2 : (j : ℤ) + 1 - ((j : ℤ) - e) = 1 + e := by ring
          rw [e1, e2, mul_comm]
  have h0 : ∀ k : ℤ, k < 0 ∨ (n : ℤ) ≤ k →
      (∑ l ∈ Finset.Icc (0 : ℤ) ((m : ℤ) - 1),
        padQ X k l * padQ K ((i : ℤ) + 1 - k) ((j : ℤ) + 1 - l)) = 0 := by
    intro k hk
    exact Finset.sum_eq_zero (fun l _ => by rw [padQ_zero_row X _ _ hk, zero_mul])
  have hw : ∀ k : ℤ, k < (i : ℤ) - 1 ∨ (i : ℤ) + 1 < k →
      (∑ l ∈ Finset.Icc (0 : ℤ) ((m : ℤ) - 1),
        padQ X k l * padQ K ((i : ℤ) + 1 - k) ((j : ℤ) + 1 - l)) = 0 := by
    intro k hk
    exact Finset.sum_eq_zero (fun l _ => by rw [padQ_zero_row K _ _ (by omega), mul_zero])
  calc convolve2d X K i j
      = ∑ d ∈ Finset.Icc (-1 : ℤ) 1,
          ∑ l ∈ Finset.Icc (0 : ℤ) ((m : ℤ) - 1),
            padQ X ((i : ℤ) - d) l * padQ K ((i : ℤ) + 1 - ((i : ℤ) - d)) ((j : ℤ) + 1 - l) :=
        sum_window _ n (i : ℤ) h0 hw
    _ = specCorr X K i j := Finset.sum_congr rfl (fun d _ => inner_eq d)

theorem flatten_unflatten_eq {n m : ℕ} (v : Fin (n * m) → ℚ) : flatten (unflatten v) = v := by
  funext k
  have h : ((k : ℕ) / m) * m + (k : ℕ) % m = (k : ℕ) := by
    rw [Nat.mul_comm ((k : ℕ) / m) m, Nat.div_add_mod]
  have hv : ∀ (a b : Fin (n * m)), a = b → v a = v b := fun a b hab => by rw [hab]
  exact hv _ _ (Fin.ext h)

theorem unflatten_flatten_eq {n m : ℕ} (X : Field n m) : unflatten (flatten X) = X := by
  funext i j
  have hm : 0 < m := j.pos
  have h1 : ((i : ℕ) * m + (j : ℕ)) / m = (i : ℕ) := by
    rw [show (i : ℕ) * m + (j : ℕ) = (j : ℕ) + m * (i : ℕ) from by ring,
      Nat.add_mul_div_left _ _ hm, Nat.div_eq_of_lt j.isLt, Nat.zero_add]
  have h2 : ((i : ℕ) * m + (j : ℕ)) % m = (j : ℕ) := by
    rw [show (i : ℕ) * m + (j : ℕ) = (j : ℕ) + m * (i : ℕ) from by ring,
      Nat.add_mul_mod_self_left, Nat.mod_eq_of_lt j.isLt]
  have hX : ∀ (a : Fin n) (b : Fin m) (a' : Fin n) (b' : Fin m),
      a = a' → b = b' → X a b = X a' b' := by
    intro a b a' b' h h'
    rw [h, h']
  exact hX _ _ _ _ (Fin.ext h1) (Fin.ext h2)

theorem cnn_below (x : ℚ) (h : x < -1) : cnn x = -1 := by
  unfold cnn
  rw [abs_of_nonpos (by linarith), abs_of_nonpos (by linarith)]
  ring

theorem cnn_inside (x : ℚ) (h1 : -1 ≤ x) (h2 : x ≤ 1) : cnn x = x := by
  unfold cnn
  rw [abs_of_nonneg (by linarith), abs_of_nonpos (by linarith)]
  ring

theorem cnn_above (x : ℚ) (h : 1 < x) : cnn x = 1 := by
  unfold cnn
  rw [abs_of_nonneg (by linarith), abs_of_nonneg (by linarith)]
  ring

/-- When the loop is driven by an integrator that follows an exact solution,
any state it hands on is that solution at a time at least `tFinal + 0.1`. -/
theorem odeLoop_exactStep_sol {σ : Type} (sol : ℚ → σ) (tF dt : ℚ) :
    ∀ (fuel : ℕ) (t : ℚ) (res : Option σ), (res = none ∨ res = some (sol t)) →
    ∀ (st' : OdeState σ) (r : Option σ),
      odeLoop (exactStep sol) tF dt fuel ⟨t, sol t, true⟩ res = some (st', r) →
      ∀ s, r = some s → ∃ T, s = sol T ∧ tF + 1 / 10 ≤ T := by
  intro fuel
  induction fuel with
  | zero =>
      intro t res hres st' r h s hs
      simp only [odeLoop] at h
      split_ifs at h with hc
      rcases hres with hres | hres
      · rw [Option.some.injEq] at h
        rw [← (Prod.mk.injEq _ _ _ _).mp h |>.2, hres] at hs
        exact Option.noConfusion hs
      · rw [Option.some.injEq] at h
        have hr : r = res := ((Prod.mk.injEq _ _ _ _).mp h).2.symm
        rw [hr, hres, Option.some.injEq] at hs
        refine ⟨t, hs.symm, ?_⟩
        push_neg at hc
        exact hc trivial
  | succ fuel ih =>
      intro t res hres st' r h s hs
      simp only [odeLoop] at h
      split_ifs at h with hc
      · exact ih (t + dt) (some (sol (t + dt))) (Or.inr rfl) st' r h s hs
      · rcases hres with hres | hres
        · rw [Option.some.injEq] at h
          rw [← (Prod.mk.injEq _ _ _ _).mp h |>.2, hres] at hs
          exact Option.noConfusion hs
        · rw [Option.some.injEq] at h
          have hr : r = res := ((Prod.mk.injEq _ _ _ _).mp h).2.symm
          rw [hr, hres, Option.some.injEq] at hs
          refine ⟨t, hs.symm, ?_⟩
          push_neg at hc
          exact hc trivial

theorem foldl_min_le_foldl_max (t0 : ℚ) (ts : List ℚ) :
    ts.foldl min t0 ≤ ts.foldl max t0 := by
  have hmin : ∀ (l : List ℚ) (a : ℚ), l.foldl min a ≤ a := by
    intro l
    induction l with
    | nil => intro a; simp
    | cons b l ih => intro a; exact le_trans (ih (min a b)) (min_le_left a b)
  have hmax : ∀ (l : List ℚ) (a : ℚ), a ≤ l.foldl max a := by
    intro l
    induction l with
    | nil => intro a; simp
    | cons b l ih => intro a; exact le_trans (le_max_left a b) (ih (max a b))
  exact le_trans (hmin ts t0) (hmax ts t0)

theorem pixel_band_lo (v : ℚ) (h1 : -1 ≤ v) (hb : v < -1/2) : roundHalfEven v = -1 := by
  have hf : ⌊v⌋ = -1 := by
    rw [Int.floor_eq_iff]
    constructor <;> push_cast <;> linarith
  simp only [roundHalfEven]
  rw [hf, if_pos (by push_cast; linarith)]

theorem pixel_band_mid (v : ℚ) (h1 : -1/2 ≤ v) (h2 : v ≤ 1/2) : roundHalfEven v = 0 := by
  rcases lt_or_le v 0 with hv0 | hv0
  · have hf : ⌊v⌋ = -1 := by
      rw [Int.floor_eq_iff]
      constructor <;> push_cast <;> linarith
    simp only [roundHalfEven]
    rw [hf, if_neg (by push_cast; linarith)]
    rcases eq_or_lt_of_le h1 with hexact | hlt
    · rw [if_neg (by push_cast; linarith [hexact.symm]), if_neg (by decide)]
      norm_num
    · rw [if_pos (by push_cast; linarith)]
      norm_num
  · have hf : ⌊v⌋ = 0 := by
      rw [Int.floor_eq_iff]
      constructor <;> push_cast <;> linarith
    simp only [roundHalfEven]
    rw [hf]
    rcases eq_or_lt_of_le h2 with hexact | hlt
    · rw [if_neg (by push_cast; linarith [hexact]), if_neg (by push_cast; linarith [hexact]),
        if_pos (by decide)]
    · rw [if_pos (by push_cast; linarith)]

theorem pixel_band_hi (v : ℚ) (hb : 1/2 < v) (h2 : v ≤ 1) : roundHalfEven v = 1 := by
  rcases eq_or_lt_of_le h2 with hexact | hlt
  · subst hexact
    decide
  · have hf : ⌊v⌋ = 0 := by
      rw [Int.floor_eq_iff]
      constructor <;> push_cast <;> linarith
    simp only [roundHalfEven]
    rw [hf, if_neg (by push_cast; linarith), if_pos (by push_cast; linarith)]
    norm_num

/-! ### Claims -/

/-- Claim C1 (corrected).  The claim that the integration phase hands the
output nonlinearity the ODE solution at exactly `t.max()` is false: the loop
`while ode.successful() and ode.t < tFinal + 0.1` keeps stepping until the
current time reaches `tFinal + 0.1`, so (driving the loop with an integrator
that follows the exact solution) the state handed on is the solution at a
time `T ≥ t.max() + 0.1`, strictly later than `t.max()`. -/
theorem integration_reaches_past_tFinal (σ : Type) (sol : ℚ → σ) (tF dt t0 : ℚ)
    (fuel : ℕ) (st' : OdeState σ) (s : σ)
    (h : odeLoop (exactStep sol) tF dt fuel ⟨t0, sol t0, true⟩ none = some (st', some s)) :
    ∃ T, s = sol T ∧ tF + 1 / 10 ≤ T ∧ tF < T := by
  obtain ⟨T, hT, hle⟩ :=
    odeLoop_exactStep_sol sol tF dt fuel t0 none (Or.inl rfl) st' (some s) h s rfl
  exact ⟨T, hT, hle, by linarith⟩

/-- Claim C1, witness: with the edgeDetection time points (`tInitial = 0`,
`tFinal = 10`, `dt = 10`) the loop runs to `t = 20` and hands on the solution
there. -/
theorem integration_reaches_past_tFinal_witness :
    (odeLoop (exactStep (id : ℚ → ℚ)) 10 10 3 ⟨0, id 0, true⟩ none
      = some (⟨20, 20, true⟩, some 20))
    ∧ ∃ T, (20 : ℚ) = id T ∧ 10 + 1 / 10 ≤ T ∧ (10 : ℚ) < T := by
  constructor
  · decide
  · exact integration_reaches_past_tFinal ℚ id 10 10 0 3 ⟨20, 20, true⟩ 20 (by decide)

/-- Claim C1, counterexample: with `t = [0, 10]` (so `t.max() = 10`,
`dt = 10`) the exactly-following integrator ends at time `20`, and the state
handed on is the solution at `20`, not at `t.max() = 10`. -/
theorem integration_not_at_tFinal_cx :
    (odeLoop (exactStep (id : ℚ → ℚ)) 10 10 3 ⟨0, 0, true⟩ none
      = some (⟨20, 20, true⟩, some 20)) ∧ id (20 : ℚ) ≠ id (10 : ℚ) := by decide

/-- Claim C2 (corrected).  After the numeric no-op `v / 255 * 255`, the value
is rounded half-to-even and converted to `uint8` by wrapping modulo 256, with
no clamping: nonlinearity outputs in `[-1, -1/2)` wrap to pixel 255 (not 0),
outputs in `[-1/2, 1/2]` give 0, outputs in `(1/2, 1]` give 1. -/
theorem rescale_wraps_not_clamps (v : ℚ) (h1 : -1 ≤ v) (h2 : v ≤ 1) :
    pixelOf v = if v < -1/2 then 255 else if v ≤ 1/2 then 0 else 1 := by
  have hv : v / 255 * 255 = v := div_mul_cancel₀ v (by norm_num)
  unfold pixelOf
  rw [hv]
  split_ifs with hb1 hb2
  · rw [pixel_band_lo v h1 hb1]
    decide
  · rw [pixel_band_mid v (not_lt.mp hb1) hb2]
    decide
  · rw [pixel_band_hi v (not_le.mp hb2) h2]
    decide

/-- Claim C2, witness: a nonlinearity output of `3/4` is rescaled to the
byte 1. -/
theorem rescale_wraps_not_clamps_witness :
    ((-1 : ℚ) ≤ 3/4 ∧ (3/4 : ℚ) ≤ 1) ∧ pixelOf (3/4) = 1 := by
  refine ⟨⟨by norm_num, by norm_num⟩, ?_⟩
  have h := rescale_wraps_not_clamps (3/4) (by norm_num) (by norm_num)
  norm_num at h
  exact h

/-- Claim C2, counterexample: the nonlinearity output `-1` is mapped by the
code's rescaling to the byte 255 (wraparound modulo 256), not to the clamped
value 0 asserted by the claim. -/
theorem rescale_negative_cx :
    pixelOf (-1) = 255 ∧ pixelClamped (-1) = 0 ∧ (255 : ℕ) ≠ 0 := by decide

/-- Claim C3 (corrected).  When the integrator reports failure,
`imageProcessing` does not raise: the `while` loop merely stops, the last
array returned by `ode.integrate` is passed through the output nonlinearity,
and the output file is written all the same (the returned flag records the
failure). -/
theorem integration_failure_still_writes {n m : ℕ} (u : Field n m)
    (tempA tempB : Field 3 3) (ic Ib : ℚ) (t0 : ℚ) (ts : List ℚ) (fuel : ℕ)
    (y' : Fin (n * m) → ℚ) (self : PyCNN) :
    imageProcessing (fun _rhs => failStep y') self u tempA tempB ic Ib (t0 :: ts) (fuel + 1)
      = some (⟨m, n⟩, savedImage y', false) := by
  have hcond : ts.foldl min t0 < ts.foldl max t0 + 1 / 10 :=
    lt_of_le_of_lt (foldl_min_le_foldl_max t0 ts) (by linarith)
  have hloop : odeLoop (failStep y') (ts.foldl max t0) (dtOf t0 ts) (fuel + 1)
      ⟨ts.foldl min t0, flatten (fun i j => u i j * ic), true⟩ none
      = some (⟨ts.foldl min t0, y', false⟩, some y') := by
    simp only [odeLoop]
    rw [if_pos ⟨trivial, hcond⟩]
    cases fuel with
    | zero => simp [odeLoop, failStep]
    | succ fuel => simp [odeLoop, failStep]
  simp only [imageProcessing]
  rw [hloop]

/-- Claim C3, counterexample: a concrete run in which the integrator fails at
once (`successful()` goes false) yet `imageProcessing` returns a written
image; on a 1×1 input the failed state `-1` is saved as the byte 255. -/
theorem integration_failure_writes_cx :
    (@imageProcessing 1 1 (fun _rhs => failStep (fun _ => -1)) initPyCNN
      (fun _ _ => 100) (fun _ _ => 0) (fun _ _ => 0) 0 0 [0, 10] 3).map
        (fun r => (r.1, r.2.1 0 0, r.2.2)) = some (⟨1, 1⟩, 255, false) := by decide

/-- Claim C4 (confirmed).  The derivative handed to the integrator is the
flattening, in the same row-major order as the unflattening of the state, of
`-X + Ib + Bu + F`, where `F` is the spec's Convolution Engine applied to the
pointwise nonlinearity of `X` with the feedback kernel, and
`Bu` is the Convolution Engine applied to the input image with the control
kernel, fixed for the whole simulation (it does not depend on `t` or `x`). -/
theorem odeRhs_matches_spec_formula {n m : ℕ} (u : Field n m)
    (tempA tempB : Field 3 3) (Ib : ℚ) (t : ℚ) (x : Fin (n * m) → ℚ) :
    odeRhs u tempA tempB Ib t x
      = flatten (fun i j => -(unflatten x i j) + Ib + specCorr u tempB i j
          + specCorr (fun a b => cnn (unflatten x a b)) tempA i j) := by
  simp only [odeRhs, f]
  exact congrArg flatten (by
    funext i j
    rw [convolve2d_eq_specCorr, convolve2d_eq_specCorr])

/-- Claim C5 (confirmed).  The convolution the code performs
(`scipy.signal.convolve2d(·, ·, 'same')` with zero fill) produces exactly the
spec's window formula
`Y[i,j] = Σ_{di,dj ∈ {-1,0,1}} K[1+di,1+dj] * X[i-di, j-dj]` with zero
padding — the kernel orientation of that formula, with no additional flip. -/
theorem convolve2d_matches_spec_window {n m : ℕ} (X : Field n m) (K : Field 3 3)
    (i : Fin n) (j : Fin m) : convolve2d X K i j = specCorr X K i j :=
  convolve2d_eq_specCorr X K i j

/-- Claim C6 (confirmed).  The output nonlinearity
`cnn x = 0.5 * (|x+1| - |x-1|)` always lies in `[-1, 1]`, is the identity on
`[-1, 1]`, and saturates to `1` above and `-1` below the band. -/
theorem cnn_saturation_props (x : ℚ) :
    (-1 ≤ cnn x ∧ cnn x ≤ 1) ∧ (-1 ≤ x → x ≤ 1 → cnn x = x) ∧
      (1 < x → cnn x = 1) ∧ (x < -1 → cnn x = -1) := by
  refine ⟨?_, cnn_inside x, cnn_above x, cnn_below x⟩
  rcases le_or_lt x (-1) with h | h
  · rcases eq_or_lt_of_le h with heq | hlt
    · subst heq
      decide
    · rw [cnn_below x hlt]
      norm_num
  · rcases le_or_lt x 1 with h2 | h2
    · rw [cnn_inside x (le_of_lt h) h2]
      exact ⟨le_of_lt h, h2⟩
    · rw [cnn_above x h2]
      norm_num

/-- Claim C6, witness: saturation at `2` and `-2`, identity at `1/2`, and the
bounds at `1/4`. -/
theorem cnn_saturation_props_witness :
    cnn 2 = 1 ∧ cnn (-2) = -1 ∧ cnn (1/2) = 1/2 ∧ (-1 ≤ cnn (1/4) ∧ cnn (1/4) ≤ 1) :=
  ⟨(cnn_saturation_props 2).2.2.1 (by norm_num),
   (cnn_saturation_props (-2)).2.2.2 (by norm_num),
   (cnn_saturation_props (1/2)).2.1 (by norm_num) (by norm_num),
   (cnn_saturation_props (1/4)).1⟩

/-- Claim C7 (confirmed).  The row-major `flatten`/`unflatten` used by the
derivative function and the simulator are mutually inverse: flattening after
unflattening gives back every state vector, and unflattening after flattening
gives back every field. -/
theorem reshape_roundtrip {n m : ℕ} (v : Fin (n * m) → ℚ) (X : Field n m) :
    flatten (unflatten v) = v ∧ unflatten (flatten X) = X :=
  ⟨flatten_unflatten_eq v, unflatten_flatten_eq X⟩

/-- Claim C8 (confirmed).  `edgeDetection` invokes the simulation with the
catalog values: feedback template with a single central 1, control template
with central 8 and -1 elsewhere, bias `-1`, initial condition `0`, and the
time points `np.linspace(0, 10, 2) = [0, 10]` (exactly two samples). -/
theorem edgeDetection_preset_values :
    (∀ i j, edgeDetectionCall.tempA i j = if i = 1 ∧ j = 1 then 1 else 0) ∧
    (∀ i j, edgeDetectionCall.tempB i j = if i = 1 ∧ j = 1 then 8 else -1) ∧
    edgeDetectionCall.Ib = -1 ∧ edgeDetectionCall.initialCondition = 0 ∧
    edgeDetectionCall.t = [0, 10] ∧ edgeDetectionCall.t.length = 2 := by
  exact ⟨by decide, by decide, by decide, by decide, by decide, by decide⟩

/-- Claim C9 (corrected).  `imageProcessing` is not free of persistent
effects on the `PyCNN` object: `self.m, self.n = gray.size` overwrites both
attributes with the processed image's width and height, and that is the state
the object is left in whenever the call returns. -/
theorem imageProcessing_writes_dims {n m : ℕ}
    (integ : (ℚ → (Fin (n * m) → ℚ) → (Fin (n * m) → ℚ)) → Step (Fin (n * m) → ℚ))
    (self : PyCNN) (u : Field n m) (tempA tempB : Field 3 3) (ic Ib : ℚ)
    (t : List ℚ) (fuel : ℕ) (r : PyCNN × (Fin n → Fin m → ℕ) × Bool)
    (h : imageProcessing integ self u tempA tempB ic Ib t fuel = some r) :
    r.1 = ⟨m, n⟩ := by
  simp only [imageProcessing] at h
  split at h
  · exact Option.noConfusion h
  · split at h
    · exact Option.noConfusion h
    · exact Option.noConfusion h
    · rw [Option.some.injEq] at h
      rw [← h]

/-- Claim C9, witness: a concrete run on a 1×2 image leaves the object at
`⟨2, 1⟩`. -/
theorem imageProcessing_writes_dims_witness :
    (@imageProcessing 1 2 (fun _rhs => exactStep (fun _ _ => 0)) initPyCNN
      (fun _ _ => 0) (fun _ _ => 0) (fun _ _ => 0) 0 0 [0, 10] 3
      = some (⟨2, 1⟩, @savedImage 1 2 (fun _ => 0), true))
    ∧ ((⟨2, 1⟩, @savedImage 1 2 (fun _ => 0), true)
        : PyCNN × (Fin 1 → Fin 2 → ℕ) × Bool).1 = ⟨2, 1⟩ := by
  constructor
  · rfl
  · exact imageProcessing_writes_dims (fun _rhs => exactStep (fun _ _ => 0)) initPyCNN
      (fun _ _ => 0) (fun _ _ => 0) (fun _ _ => 0) 0 0 [0, 10] 3
      (⟨2, 1⟩, @savedImage 1 2 (fun _ => 0), true) (by rfl)

/-- Claim C9, counterexample: processing a 1×2 image on a freshly constructed
object (`m = n = 0`) returns with the object mutated to `⟨2, 1⟩`, so a
subsequent call can observe state left by the previous one. -/
theorem imageProcessing_mutates_self_cx :
    ((@imageProcessing 1 2 (fun _rhs => exactStep (fun _ _ => 0)) initPyCNN
      (fun _ _ => 0) (fun _ _ => 0) (fun _ _ => 0) 0 0 [0, 10] 3).map (fun r => r.1)
      = some ⟨2, 1⟩) ∧ (⟨2, 1⟩ : PyCNN) ≠ initPyCNN := by decide

/-- Claim C10 (confirmed).  `validate` checks existence first, then
regular-file-ness, then the lowercased dot-stripped extension: a non-existent
path always reports the does-not-exist error whatever its extension, the
unsupported-extension error implies both filesystem checks passed, and
`generalTemplates` returns the validation error without ever invoking
`imageProcessing` when validation fails. -/
theorem validate_order_of_checks (pathExists isFile : List Char → Bool) (p : List Char) :
    (pathExists p = false → validate pathExists isFile p = .errNotExist) ∧
    (validate pathExists isFile p = .errUnsupported →
      pathExists p = true ∧ isFile p = true) ∧
    (∀ {n m : ℕ}
      (integ : (ℚ → (Fin (n * m) → ℚ) → (Fin (n * m) → ℚ)) → Step (Fin (n * m) → ℚ))
      (self : PyCNN) (u : Field n m) (tempA tempB : Field 3 3) (ic Ib : ℚ)
      (t : List ℚ) (fuel : ℕ), validate pathExists isFile p ≠ .ok →
      generalTemplates pathExists isFile integ self p u tempA tempB ic Ib t fuel
        = .error (validate pathExists isFile p)) := by
  refine ⟨?_, ?_, ?_⟩
  · intro h
    simp [validate, h]
  · intro h
    simp only [validate] at h
    split_ifs at h with h1 h2 h3
    simp only [Bool.not_eq_false] at h1 h2
    exact ⟨h1, h2⟩
  · intro n m integ self u tempA tempB ic Ib t fuel hne
    cases hv : validate pathExists isFile p with
    | ok => exact absurd hv hne
    | errNotExist => simp [generalTemplates, hv]
    | errNotFile => simp [generalTemplates, hv]
    | errUnsupported => simp [generalTemplates, hv]

/-- Claim C10, witness: for a path with a supported extension on a filesystem
where nothing exists, validation reports the does-not-exist error and
`generalTemplates` propagates it without producing a result. -/
theorem validate_order_of_checks_witness :
    ((fun (_ : List Char) => false) ['i', 'm', 'g', '.', 'p', 'n', 'g'] = false
      ∧ validate (fun _ => false) (fun _ => true) ['i', 'm', 'g', '.', 'p', 'n', 'g']
          = .errNotExist)
    ∧ @generalTemplates 1 1 (fun _ => false) (fun _ => true)
        (fun _rhs => failStep (fun _ => 0)) initPyCNN ['i', 'm', 'g', '.', 'p', 'n', 'g']
        (fun _ _ => 0) (fun _ _ => 0) (fun _ _ => 0) 0 0 [0, 10] 1
      = .error (validate (fun _ => false) (fun _ => true)
          ['i', 'm', 'g', '.', 'p', 'n', 'g']) := by
  refine ⟨⟨rfl, ?_⟩, ?_⟩
  · exact (validate_order_of_checks (fun _ => false) (fun _ => true)
      ['i', 'm', 'g', '.', 'p', 'n', 'g']).1 rfl
  · exact (validate_order_of_checks (fun _ => false) (fun _ => true)
      ['i', 'm', 'g', '.', 'p', 'n', 'g']).2.2 _ initPyCNN _ _ _ _ _ _ _ (by decide)

end SegNet
